import Mathlib

/-!
Shallow embedding of the iteration/streaming core of the `rawr` Reddit API
client (repository `Aurora0001/rawr`), covering:

* `src/structures/listing.rs` — the `Listing` paginator and the `PostStream`
  polling stream;
* `src/structures/comment_list.rs` — the `CommentList` tree builder / merge
  engine and the `CommentStream` polling stream;
* `src/structures/messages.rs` — the `MessageStream` unread-message stream;
* `src/errors/mod.rs` — the `APIError` taxonomy.

Network transports are modelled as explicit functions passed to the
operations; recursion in the Rust iterators (`fn next` calling `self.next()`)
is modelled with an explicit fuel parameter, since a hostile transport can
make the original loop run forever.  A panic (`unwrap` / `expect` /
`unreachable!`) is modelled as a dedicated outcome constructor or as
`Option.none`, never silently erased.
-/

namespace Rawr

/-- `APIError` from `src/errors/mod.rs`.  Payloads irrelevant to control flow
are reduced to simple data (status code as a `Nat`, field name as `String`). -/
inductive APIError where
  | ExhaustedListing : APIError
  | HTTPError : Nat → APIError
  | HyperError : APIError
  | JSONError : APIError
  | MissingField : String → APIError
deriving DecidableEq, Repr

/-! ### Listing (generic paginator), from `src/structures/listing.rs`

`Listing` holds `data.children` (the locally buffered items) and
`data.after` (the continuation token).  The transport collaborator
(`client.get_json` on `query_stem&after=tok`) is modelled as a function
`tr : τ → Except APIError (List ι × Option τ)` returning the fetched page's
children and its new `after` token.  The token type `τ` is opaque in the
source (a `String`), so it is kept generic here. -/

structure LState (ι τ : Type) where
  children : List ι
  after : Option τ
deriving DecidableEq, Repr

/-- `Listing::fetch_after`: with a token present, fetch through the
transport; with no token, fail with `ExhaustedListing`. -/
def fetch_after {ι τ : Type} (tr : τ → Except APIError (List ι × Option τ))
    (s : LState ι τ) : Except APIError (List ι × Option τ) :=
  match s.after with
  | some tok => tr tok
  | none => Except.error APIError.ExhaustedListing

/-- Outcome of one `Listing::next` call.  `panicked` models the
`.expect("After does not exist!")` panic on a failed fetch; `outOfFuel`
models non-termination of the self-recursive loop. -/
inductive LNext (ι τ : Type) where
  | item : ι → LState ι τ → LNext ι τ
  | ended : LNext ι τ
  | panicked : APIError → LNext ι τ
  | outOfFuel : LNext ι τ
deriving DecidableEq, Repr

/-- `impl Iterator for Listing — fn next`: pop the front buffered child if
any; otherwise, if `after` is absent, end; otherwise fetch the next page
(panicking on fetch error), append its children, replace `after`, and
retry. -/
def listingNext {ι τ : Type} (tr : τ → Except APIError (List ι × Option τ)) :
    Nat → LState ι τ → LNext ι τ
  | _, ⟨c :: cs, a⟩ => LNext.item c ⟨cs, a⟩
  | _, ⟨[], none⟩ => LNext.ended
  | fuel, ⟨[], some tok⟩ =>
    match tr tok with
    | Except.error e => LNext.panicked e
    | Except.ok (items, newAfter) =>
      match fuel with
      | 0 => LNext.outOfFuel
      | fuel + 1 => listingNext tr fuel ⟨items, newAfter⟩

/-- How a full drain of a `Listing` ends. -/
inductive LEnd where
  | ended : LEnd
  | panicked : APIError → LEnd
  | outOfFuel : LEnd
deriving DecidableEq, Repr

/-- Repeatedly call `listingNext`, collecting the yielded items in order.
`steps` bounds the number of `next` calls; `fuel` is the per-call fuel for
the internal fetch-retry recursion. -/
def listingDrain {ι τ : Type} (tr : τ → Except APIError (List ι × Option τ)) :
    Nat → Nat → LState ι τ → List ι × LEnd
  | 0, _, _ => ([], LEnd.outOfFuel)
  | steps + 1, fuel, s =>
    match listingNext tr fuel s with
    | LNext.item x s2 =>
      let rest := listingDrain tr steps fuel s2
      (x :: rest.1, rest.2)
    | LNext.ended => ([], LEnd.ended)
    | LNext.panicked e => ([], LEnd.panicked e)
    | LNext.outOfFuel => ([], LEnd.outOfFuel)

/-! #### The page-sequence transport used for the order-preservation claim.

The continuation token is opaque, so for a fixed sequence of pages we may
take the token to be the list of pages still to be fetched: the token
stored in page `Pᵢ` leads to page `Pᵢ₊₁`, and the last page carries no
token. -/

/-- Token denoting a non-empty list of remaining pages (`none` when no pages
remain). -/
def tokOf {ι : Type} (ps : List (List ι)) : Option (List (List ι)) :=
  match ps with
  | [] => none
  | _ :: _ => some ps

/-- Transport serving a fixed sequence of pages in order. -/
def pageTransport {ι : Type} :
    List (List ι) → Except APIError (List ι × Option (List (List ι))) :=
  fun ps =>
    match ps with
    | [] => Except.error APIError.ExhaustedListing
    | p :: rest => Except.ok (p, tokOf rest)

/-- The `Listing` as constructed from the first fetched page: its children
are buffered and its token leads to the remaining pages. -/
def initListing {ι : Type} (ps : List (List ι)) : LState ι (List (List ι)) :=
  match ps with
  | [] => ⟨[], none⟩
  | p :: rest => ⟨p, tokOf rest⟩

/-! ### The bounded de-duplication window shared by `PostStream`
(`src/structures/listing.rs`) and `CommentStream`
(`src/structures/comment_list.rs`).

Both streams keep `set: VecDeque<String>` and, for each candidate item, run
the identical code: linear `contains` scan; if present, skip; otherwise
`push_back(name)`, then `if set.len() > 10 { set.pop_front(); }`, and yield.
We model the engine as a fold over the flattened sequence of candidate
identifiers produced by successive polls (the window state persists across
polls in both streams). -/

/-- Dedup engine state: the seen-window and the identifiers yielded so far,
oldest first. -/
structure DState where
  seen : List String
  out : List String
deriving DecidableEq, Repr

/-- One candidate item presented to the dedup window: skip if seen,
otherwise push (evicting the oldest if capacity 10 is exceeded) and
yield. -/
def dedupPush (s : DState) (name : String) : DState :=
  if name ∈ s.seen then s
  else
    let pushed := s.seen ++ [name]
    { seen := if pushed.length > 10 then pushed.drop 1 else pushed,
      out := s.out ++ [name] }

/-- Run the dedup window over a sequence of candidate identifiers, starting
from the empty window (`VecDeque::new()`). -/
def dedupRun (names : List String) : DState :=
  names.foldl dedupPush ⟨[], []⟩

/-! ### PostStream, from `src/structures/listing.rs`.

Items are represented by their `name()` identifier (the only attribute the
stream inspects).  The poll transport is modelled as a function of the poll
count, returning the listing's children in server (newest-first) order, or
an error.  `next` never returns `None` in the source: it loops until an
item is found, so the only outcomes are an item or fuel exhaustion. -/

structure PSState where
  set : List String
  currentIter : Option (List String)
  polls : Nat
deriving DecidableEq, Repr

/-- Outcome of one `PostStream::next` call. -/
inductive SNext where
  | item : String → PSState → SNext
  | outOfFuel : SNext
deriving DecidableEq, Repr

/-- `impl Iterator for PostStream — fn next`.  With a current iterator:
take its front item; a duplicate is discarded and the call loops; a fresh
item is pushed into the window (evicting the oldest beyond capacity 10) and
yielded; an exhausted iterator sends the call back to the poll branch.
With no current iterator: sleep, fetch the listing; on success install the
children reversed (oldest-first), on failure install nothing; loop. -/
def postNext (tr : Nat → Except APIError (List String)) :
    Nat → PSState → SNext
  | 0, _ => SNext.outOfFuel
  | fuel + 1, ⟨set, some (x :: rest), polls⟩ =>
    if x ∈ set then postNext tr fuel ⟨set, some rest, polls⟩
    else
      let pushed := set ++ [x]
      SNext.item x
        ⟨if pushed.length > 10 then pushed.drop 1 else pushed,
         some rest, polls⟩
  | fuel + 1, ⟨set, some [], polls⟩ => postNext tr fuel ⟨set, none, polls⟩
  | fuel + 1, ⟨set, none, polls⟩ =>
    match tr polls with
    | Except.ok children =>
      postNext tr fuel ⟨set, some children.reverse, polls + 1⟩
    | Except.error _ => postNext tr fuel ⟨set, none, polls + 1⟩

/-! ### CommentList (tree builder / merge engine), from
`src/structures/comment_list.rs`.

A `Comment` is modelled by the only attributes the engine reads: `name()`
(its full id), `parent()` (`data.parent_id`) and its attached replies (the
`comments` list of its inner reply `CommentList`, to which
`Comment::add_reply` pushes).  A comment's own inline pending-expansion
stubs are never read by the outer merge/drain loop and are not modelled. -/

inductive Comment where
  | mk : String → String → List Comment → Comment

mutual

def Comment.decEq (a b : Comment) : Decidable (a = b) :=
  match a, b with
  | Comment.mk n1 p1 rs1, Comment.mk n2 p2 rs2 =>
    if hn : n1 = n2 then
      if hp : p1 = p2 then
        match Comment.decEqList rs1 rs2 with
        | isTrue hr => isTrue (by rw [hn, hp, hr])
        | isFalse hr => isFalse (by intro h; injection h; contradiction)
      else isFalse (by intro h; injection h; contradiction)
    else isFalse (by intro h; injection h; contradiction)

def Comment.decEqList (as bs : List Comment) : Decidable (as = bs) :=
  match as, bs with
  | [], [] => isTrue rfl
  | [], _ :: _ => isFalse (by intro h; exact List.noConfusion h)
  | _ :: _, [] => isFalse (by intro h; exact List.noConfusion h)
  | a :: as2, b :: bs2 =>
    match Comment.decEq a b, Comment.decEqList as2 bs2 with
    | isTrue h1, isTrue h2 => isTrue (by rw [h1, h2])
    | isFalse h1, _ => isFalse (by intro h; injection h; contradiction)
    | isTrue _, isFalse h2 => isFalse (by intro h; injection h; contradiction)

end

instance : DecidableEq Comment := Comment.decEq

def Comment.name : Comment → String
  | Comment.mk n _ _ => n

def Comment.parent : Comment → String
  | Comment.mk _ p _ => p

def Comment.replies : Comment → List Comment
  | Comment.mk _ _ rs => rs

/-- `Comment::add_reply`: push the item onto this comment's reply list. -/
def Comment.add_reply : Comment → Comment → Comment
  | Comment.mk n p rs, child => Comment.mk n p (rs ++ [child])

/-- A `more` stub (`responses::comment::More`): the id of the parent with
missing children and the ordered child ids to fetch in one batch. -/
structure More where
  parent_id : String
  children : List String
deriving DecidableEq, Repr

/-- The `comment_hashes` map (name → index into the top-level `comments`
vector).  `HashMap::insert` overwrites, `get` returns the latest binding;
an association list with prepend-insert and first-match lookup has the same
observable behaviour. -/
def hashInsert (m : List (String × Nat)) (k : String) (v : Nat) :
    List (String × Nat) :=
  (k, v) :: m

def hashGet (m : List (String × Nat)) (k : String) : Option Nat :=
  match m with
  | [] => none
  | (k2, v) :: rest => if k2 = k then some v else hashGet rest k

/-- The orphan registry built during one `merge_more_comments` call:
`HashMap<String, Vec<Comment>>`, again as an association list with unique
keys (every insertion in the source either targets a key just removed or a
key absent from the map). -/
abbrev Orph : Type := List (String × List Comment)

/-- `HashMap::remove`: return the value at the key, and the map without
that entry. -/
def orphRemove (o : Orph) (k : String) : Option (List Comment × Orph) :=
  match o with
  | [] => none
  | (k2, v) :: rest =>
    if k2 = k then some (v, rest)
    else
      match orphRemove rest k with
      | none => none
      | some (v2, rest2) => some (v2, (k2, v) :: rest2)

def orphInsert (o : Orph) (k : String) (v : List Comment) : Orph :=
  (k, v) :: o

/-- The mutable `CommentList` state seen by the merge engine: the root
parent id, the attached top-level comments, and the `comment_hashes`
index. -/
structure CState where
  parent : String
  comments : List Comment
  hashes : List (String × Nat)
deriving DecidableEq

/-- `CommentList::add_reply`: record the comment's index in
`comment_hashes`, then push it as a top-level comment. -/
def CState.add_reply (s : CState) (item : Comment) : CState :=
  { s with
    hashes := hashInsert s.hashes item.name s.comments.length,
    comments := s.comments ++ [item] }

/-- `self.comments[pos].add_reply(item)`.  (In the source an out-of-bounds
`pos` would panic; every index stored in `comment_hashes` during a merge is
in bounds because the comment vector only grows while merging.) -/
def updateAt : List Comment → Nat → Comment → List Comment
  | [], _, _ => []
  | c :: cs, 0, child => c.add_reply child :: cs
  | c :: cs, n + 1, child => c :: updateAt cs n child

/-- `CommentList::merge_comment` with an explicit recursion bound:
1. if the item's parent is the root parent, attach it top-level;
2. else if the parent is in `comment_hashes`, attach it under that comment;
3. else, if the registry holds a list keyed by the item's **parent** id,
   fold those entries into the item as replies and merge the item again;
4. else store the item in the registry keyed by its **own** name
   (appending to any list already there).
The source's recursion terminates because the one recursive call removes a
registry entry first; `bound` makes that measure explicit, and the
`bound = 0` case is unreachable whenever `bound > orphanage.length` (see
`mergeCommentAux_bound_irrelevant`). -/
def mergeCommentAux : Nat → CState → Comment → Orph → CState × Orph
  | 0, s, _, orphanage => (s, orphanage)
  | bound + 1, s, item, orphanage =>
    if item.parent = s.parent then (s.add_reply item, orphanage)
    else
      match hashGet s.hashes item.parent with
      | some pos => ({ s with comments := updateAt s.comments pos item }, orphanage)
      | none =>
        match orphRemove orphanage item.parent with
        | some (orphaned, rest) =>
          mergeCommentAux bound s (orphaned.foldl Comment.add_reply item) rest
        | none =>
          match orphRemove orphanage item.name with
          | some (lst, rest) => (s, orphInsert rest item.name (lst ++ [item]))
          | none => (s, orphInsert orphanage item.name [item])

/-- `CommentList::merge_comment` (the bound always suffices). -/
def merge_comment (s : CState) (item : Comment) (orphanage : Orph) :
    CState × Orph :=
  mergeCommentAux (orphanage.length + 1) s item orphanage

/-- `CommentList::merge_more_comments`: merge each fetched comment in order
into the list, threading a fresh orphan registry, which is dropped when the
merge completes. -/
def merge_more_comments (s : CState) (newComments : List Comment) : CState :=
  (newComments.foldl (fun p c => merge_comment p.1 c p.2) (s, ([] : Orph))).1

/-- One element of a decoded comment batch (`Vec<BasicThing<Value>>`):
kind `"t1"` carrying a well-formed comment, kind `"more"` carrying a stub,
or anything that makes `CommentList::new` panic (a malformed payload fails
`from_value(..).unwrap()`; any other kind hits `unreachable!()`). -/
inductive RawThing where
  | t1 : Comment → RawThing
  | moreThing : More → RawThing
  | malformed : RawThing

/-- Full `CommentList` iterator state: root parent, attached top-level
comments, the `comment_hashes` index and the pending `more` queue. -/
structure CLState where
  parent : String
  comments : List Comment
  hashes : List (String × Nat)
  more : List More

/-- One step of the `CommentList::new` decoding loop: a `t1` element is
indexed and appended to the comments, a `more` element is appended to the
stub queue, and a malformed element panics (`none`, absorbing). -/
def clNewStep (acc : Option CLState) (t : RawThing) : Option CLState :=
  match acc with
  | none => none
  | some s =>
    match t with
    | RawThing.t1 c =>
      some { s with
             hashes := hashInsert s.hashes c.name s.comments.length,
             comments := s.comments ++ [c] }
    | RawThing.moreThing m => some { s with more := s.more ++ [m] }
    | RawThing.malformed => none

/-- `CommentList::new` (decoding loop): partition the batch into comments
and `more` stubs in order, indexing each comment by name.  Returns `none`
when the source would panic on a malformed element. -/
def clNew (parent : String) (things : List RawThing) : Option CLState :=
  things.foldl clNewStep (some ⟨parent, [], [], []⟩)

/-- Outcome of one `CommentList::next` call.  `panickedDecode` models the
panic inside `fetch_more`/`CommentList::new` on a malformed fetched batch. -/
inductive CLNext where
  | item : Comment → CLState → CLNext
  | ended : CLNext
  | panickedDecode : CLNext
  | outOfFuel : CLNext

/-- `impl Iterator for CommentList — fn next`: pop the front comment if
any; otherwise, if a `more` stub is pending, fetch its batch, append the
new stubs to the queue, clear `comment_hashes`, merge the fetched comments
and retry.  The fetch collaborator maps a stub to the decoded batch. -/
def clNext (fetch : More → List RawThing) : Nat → CLState → CLNext
  | _, ⟨p, c :: cs, h, m⟩ => CLNext.item c ⟨p, cs, h, m⟩
  | _, ⟨_, [], _, []⟩ => CLNext.ended
  | fuel, ⟨p, [], _, m :: ms⟩ =>
    match clNew p (fetch m) with
    | none => CLNext.panickedDecode
    | some newListing =>
      match fuel with
      | 0 => CLNext.outOfFuel
      | fuel + 1 =>
        let merged := merge_more_comments ⟨p, [], []⟩ newListing.comments
        clNext fetch fuel
          ⟨p, merged.comments, merged.hashes, ms ++ newListing.more⟩

/-- How a full drain of a `CommentList` ends. -/
inductive CLEnd where
  | ended : CLEnd
  | panickedDecode : CLEnd
  | outOfFuel : CLEnd
deriving DecidableEq, Repr

/-- Repeatedly call `clNext`, collecting the yielded comments in order. -/
def clDrain (fetch : More → List RawThing) :
    Nat → Nat → CLState → List Comment × CLEnd
  | 0, _, _ => ([], CLEnd.outOfFuel)
  | steps + 1, fuel, s =>
    match clNext fetch fuel s with
    | CLNext.item c s2 =>
      let rest := clDrain fetch steps fuel s2
      (c :: rest.1, rest.2)
    | CLNext.ended => ([], CLEnd.ended)
    | CLNext.panickedDecode => ([], CLEnd.panickedDecode)
    | CLNext.outOfFuel => ([], CLEnd.outOfFuel)

/-! ### The merge engine viewed over a sequence of expansion responses.

In the iterator, a fetch only ever happens when `comments` is empty (all
previously attached comments have been drained), `comment_hashes` is reset
to the empty map immediately before every merge, and the orphan registry
is local to one `merge_more_comments` call.  The engine run below is the
iterator's exact treatment of a sequence of fetched expansion responses:
drain what is attached, reset the index, merge the next response. -/

/-- The comments attached by merging one expansion response into a freshly
drained list (empty comment vector, reset index). -/
def batchTrees (root : String) (response : List Comment) : List Comment :=
  (merge_more_comments ⟨root, [], []⟩ response).comments

/-- Process expansion responses in arrival order exactly as the iterator
does, returning every comment ever attached (hence drained), in order. -/
def engineRun (root : String) (responses : List (List Comment)) :
    List Comment :=
  let final := responses.foldl
    (fun (st : List Comment × CState) resp =>
      (st.1 ++ st.2.comments,
       merge_more_comments ⟨root, [], []⟩ resp))
    (([], ⟨root, [], []⟩) : List Comment × CState)
  final.1 ++ final.2.comments

mutual

/-- The (child id, parent id) attachment pairs realized by a drained tree
whose root is attached under `up`. -/
def treePairs (up : String) : Comment → List (String × String)
  | Comment.mk n _ rs => (n, up) :: treePairsList n rs

def treePairsList (up : String) : List Comment → List (String × String)
  | [] => []
  | c :: cs => treePairs up c ++ treePairsList up cs

end

/-- All attachment pairs realized by an engine run. -/
def enginePairs (root : String) (responses : List (List Comment)) :
    List (String × String) :=
  (engineRun root responses).flatMap (treePairs root)

/-! ### CommentStream, from `src/structures/comment_list.rs`.

The poll branch builds a `CommentList` from the response's children,
drains it through `.take(5)`, then reverses the result (server order is
newest-first, the stream yields oldest-first), before feeding the batch
through the same dedup window as `PostStream`. -/

/-- The batch produced by one successful `CommentStream` poll whose
response decodes to `things`: take 5 from the freshly built `CommentList`
iterator, then reverse. -/
def commentStreamPollBatch (fetch : More → List RawThing) (fuel : Nat)
    (parent : String) (things : List RawThing) : Option (List Comment) :=
  match clNew parent things with
  | none => none
  | some s =>
    let d := clDrain fetch 5 fuel s
    if d.2 = CLEnd.panickedDecode then none else some d.1.reverse

/-! ### MessageStream, from `src/structures/messages.rs`.

Before yielding an item the stream loops on `mark_read()` until it
succeeds, then sleeps once, then yields.  The side-effecting call is
modelled by its sequence of outcomes (`true` = `Ok`); the loop is the
source's unbounded `loop`, so an all-failure sequence never reaches the
yield. -/

inductive MEvent where
  | markCall : Bool → MEvent
  | sleepInterval : MEvent
  | emit : MEvent
deriving DecidableEq, Repr

/-- The `loop { if res.mark_read().is_ok() { thread::sleep(..); break; } }`
body: consume outcomes until the first success, recording each call; end
with the sleep.  `none` when the provided outcomes never succeed (the
source loops forever). -/
def markLoopTrace : List Bool → Option (List MEvent)
  | [] => none
  | ok :: rest =>
    if ok then some [MEvent.markCall true, MEvent.sleepInterval]
    else (markLoopTrace rest).map (fun tr => MEvent.markCall false :: tr)

/-- The events of `MessageStream::next` from the moment an unread message
is popped from the current batch until it is yielded. -/
def messageYieldTrace (attempts : List Bool) : Option (List MEvent) :=
  (markLoopTrace attempts).map (fun tr => tr ++ [MEvent.emit])

/-! ### Concrete scenario instances -/

/-- The stub of the spec's concrete scenario: parent `t1_A`, children
`t1_B`, `t1_C`. -/
def c2Stub : More := ⟨"t1_A", ["t1_B", "t1_C"]⟩

/-- Batch 1 of the scenario: `Node(id=t1_A, parent=t3_X)` followed by the
stub. -/
def c2Batch : List RawThing :=
  [RawThing.t1 (Comment.mk "t1_A" "t3_X" []), RawThing.moreThing c2Stub]

/-- The expansion fetch of the scenario: `Node(id=t1_B, parent=t1_A)`,
`Node(id=t1_C, parent=t1_A)`. -/
def c2Fetch : More → List RawThing := fun _ =>
  [RawThing.t1 (Comment.mk "t1_B" "t1_A" []),
   RawThing.t1 (Comment.mk "t1_C" "t1_A" [])]

/-- One step of draining a listing built over the page-sequence transport:
skip exhausted pages, and return the front item together with the
remainder of its page and the pages after it. -/
def pageStep {ι : Type} : List (List ι) → Option (ι × List ι × List (List ι))
  | [] => none
  | p :: rest =>
    match p with
    | [] => pageStep rest
    | c :: cs => some (c, cs, rest)

/-- Whether every parent id referenced by some node of some response is
either the root or the name of a node appearing in some response (the
proviso of the merge permutation-invariance property). -/
def parentsArrive (root : String) (rs : List (List Comment)) : Prop :=
  ∀ c ∈ rs.flatten, c.parent = root ∨ c.parent ∈ rs.flatten.map Comment.name

instance (root : String) (rs : List (List Comment)) :
    Decidable (parentsArrive root rs) := by
  unfold parentsArrive
  infer_instance

/-! ## Helper lemmas -/

theorem orphRemove_length (o : Orph) (k : String) :
    ∀ v o2, orphRemove o k = some (v, o2) → o2.length < o.length := by
  induction o with
  | nil => intro v o2 h; simp [orphRemove] at h
  | cons hd tl ih =>
    intro v o2 h
    obtain ⟨k2, vv⟩ := hd
    by_cases hk : k2 = k
    · simp [orphRemove, hk] at h
      obtain ⟨_, h2⟩ := h
      rw [← h2]
      simp
    · simp [orphRemove, hk] at h
      match h2 : orphRemove tl k with
      | none => rw [h2] at h; simp at h
      | some (v2, rest2) =>
        rw [h2] at h
        simp at h
        obtain ⟨_, ho⟩ := h
        have hlt := ih v2 rest2 h2
        rw [← ho]
        simp
        omega

/-- Any bound exceeding the registry size gives the same result: the
`bound = 0` branch of `mergeCommentAux` is unreachable, so
`merge_comment` computes the source's recursion. -/
theorem mergeCommentAux_bound_irrelevant :
    ∀ (b1 b2 : Nat) (s : CState) (item : Comment) (o : Orph),
      o.length < b1 → o.length < b2 →
      mergeCommentAux b1 s item o = mergeCommentAux b2 s item o := by
  intro b1
  induction b1 with
  | zero => intro b2 s item o h1 _; omega
  | succ a ih =>
    intro b2 s item o h1 h2
    match b2 with
    | 0 => omega
    | c + 1 =>
      show mergeCommentAux (a + 1) s item o = mergeCommentAux (c + 1) s item o
      unfold mergeCommentAux
      by_cases hp : item.parent = s.parent
      · simp [hp]
      · simp only [hp, if_false]
        match hashGet s.hashes item.parent with
        | some pos => rfl
        | none =>
          match h : orphRemove o item.parent with
          | some (orphaned, rest) =>
            have := orphRemove_length o item.parent orphaned rest h
            exact ih c s (orphaned.foldl Comment.add_reply item) rest
              (by omega) (by omega)
          | none => rfl

theorem foldl_clNewStep_none (l : List RawThing) :
    l.foldl clNewStep none = none := by
  induction l with
  | nil => rfl
  | cons hd tl ih => simpa [List.foldl, clNewStep] using ih

theorem foldl_clNewStep_malformed (l : List RawThing) :
    ∀ acc, RawThing.malformed ∈ l → l.foldl clNewStep acc = none := by
  induction l with
  | nil => intro acc h; simp at h
  | cons hd tl ih =>
    intro acc h
    match hd with
    | RawThing.malformed =>
      show List.foldl clNewStep (clNewStep acc RawThing.malformed) tl = none
      have : clNewStep acc RawThing.malformed = none := by
        match acc with
        | none => rfl
        | some s => rfl
      rw [this]
      exact foldl_clNewStep_none tl
    | RawThing.t1 c =>
      have hm : RawThing.malformed ∈ tl := by simpa using h
      exact ih _ hm
    | RawThing.moreThing m =>
      have hm : RawThing.malformed ∈ tl := by simpa using h
      exact ih _ hm

theorem foldl_clNewStep_t1 (cs : List Comment) :
    ∀ s0 : CLState, ∃ h2,
      (cs.map RawThing.t1).foldl clNewStep (some s0)
        = some ⟨s0.parent, s0.comments ++ cs, h2, s0.more⟩ := by
  induction cs with
  | nil =>
    intro s0
    exact ⟨s0.hashes, by simp⟩
  | cons c cs2 ih =>
    intro s0
    obtain ⟨h2, hfold⟩ := ih
      { s0 with
        hashes := hashInsert s0.hashes c.name s0.comments.length,
        comments := s0.comments ++ [c] }
    refine ⟨h2, ?_⟩
    simp only [List.map_cons, List.foldl_cons, clNewStep]
    rw [hfold]
    simp

/-- `CommentList::new` on a batch of plain comments: all comments buffered
in order, no stubs, no panic. -/
theorem clNew_t1 (parent : String) (cs : List Comment) :
    ∃ h2, clNew parent (cs.map RawThing.t1) = some ⟨parent, cs, h2, []⟩ := by
  obtain ⟨h2, hfold⟩ := foldl_clNewStep_t1 cs ⟨parent, [], [], []⟩
  exact ⟨h2, by simpa using hfold⟩

/-- Draining a `CommentList` with no pending stubs pops the buffered
comments in order: `steps` calls yield `comments.take steps`, ending
cleanly once the buffer runs out. -/
theorem clDrain_no_more (fetch : More → List RawThing) (steps : Nat) :
    ∀ (fuel : Nat) (p : String) (cs : List Comment) (h : List (String × Nat)),
      clDrain fetch steps fuel ⟨p, cs, h, []⟩
        = (cs.take steps,
           if steps ≤ cs.length then CLEnd.outOfFuel else CLEnd.ended) := by
  induction steps with
  | zero => intro fuel p cs h; simp [clDrain]
  | succ n ih =>
    intro fuel p cs h
    match cs with
    | [] => simp [clDrain, clNext]
    | c :: cs2 =>
      simp only [clDrain, clNext, ih fuel p cs2 h, List.take_succ_cons]
      by_cases hle : n ≤ cs2.length
      · simp [hle, Nat.succ_le_succ hle]
      · have : ¬ n + 1 ≤ cs2.length + 1 := by omega
        simp [hle, this]

/-- A drain of `steps` iterator calls yields at most `steps` comments,
whatever the fetch collaborator returns. -/
theorem clDrain_length_le (fetch : More → List RawThing) :
    ∀ (steps fuel : Nat) (s : CLState),
      (clDrain fetch steps fuel s).1.length ≤ steps := by
  intro steps
  induction steps with
  | zero => intro fuel s; simp [clDrain]
  | succ n ih =>
    intro fuel s
    simp only [clDrain]
    match clNext fetch fuel s with
    | CLNext.item c s2 =>
      have := ih fuel s2
      simpa using Nat.succ_le_succ this
    | CLNext.ended => simp
    | CLNext.panickedDecode => simp
    | CLNext.outOfFuel => simp

/-- The seen-window is always the length-10 (or shorter) suffix of the
yield history: pushes append at the back and evictions drop at the front. -/
def windowOk (s : DState) : Prop :=
  s.seen = s.out.drop (s.out.length - 10)

theorem windowOk_length {s : DState} (h : windowOk s) :
    s.seen.length = s.out.length - (s.out.length - 10) := by
  rw [h]
  exact List.length_drop _ _

theorem dedupPush_windowOk {s : DState} (x : String) (h : windowOk s) :
    windowOk (dedupPush s x) := by
  unfold dedupPush
  by_cases hmem : x ∈ s.seen
  · simpa [hmem] using h
  · have hslen := windowOk_length h
    simp only [hmem, if_false]
    by_cases hbig : (s.seen ++ [x]).length > 10
    · have hout : 10 ≤ s.out.length := by
        simp at hbig
        omega
      simp only [hbig, if_true]
      show (s.seen ++ [x]).drop 1
          = (s.out ++ [x]).drop ((s.out ++ [x]).length - 10)
      have h1 : s.seen.length = 10 := by simp at hbig; omega
      have hd1 : (s.seen ++ [x]).drop 1 = s.seen.drop 1 ++ [x] :=
        List.drop_append_of_le_length (by omega)
      have hd2 : (s.out ++ [x]).drop ((s.out ++ [x]).length - 10)
          = s.out.drop (s.out.length + 1 - 10) ++ [x] := by
        have : (s.out ++ [x]).length - 10 = s.out.length + 1 - 10 := by
          simp
        rw [this]
        exact List.drop_append_of_le_length (by omega)
      rw [hd1, hd2, h]
      rw [List.drop_drop]
      have : s.out.length - 10 + 1 = s.out.length + 1 - 10 := by omega
      rw [this]
    · have hout : s.out.length ≤ 9 := by
        simp at hbig
        omega
      simp only [hbig, if_false]
      show s.seen ++ [x] = (s.out ++ [x]).drop ((s.out ++ [x]).length - 10)
      have h0 : (s.out ++ [x]).length - 10 = 0 := by simp; omega
      rw [h0, List.drop_zero, h]
      have : s.out.length - 10 = 0 := by omega
      rw [this, List.drop_zero]

theorem foldl_dedupPush_windowOk (names : List String) :
    ∀ s : DState, windowOk s → windowOk (names.foldl dedupPush s) := by
  induction names with
  | nil => intro s h; exact h
  | cons n rest ih =>
    intro s h
    exact ih (dedupPush s n) (dedupPush_windowOk n h)

theorem dedupRun_windowOk (names : List String) : windowOk (dedupRun names) :=
  foldl_dedupPush_windowOk names ⟨[], []⟩ rfl

/-- No identifier appears twice within any stretch of 11 consecutive
yields: the code only yields an identifier absent from the window, and the
window is exactly the last ≤ 10 yields. -/
def windowDistinct (out : List String) : Prop :=
  ∀ (i j : Nat) (hi : i < out.length) (hj : j < out.length),
    i < j → j ≤ i + 10 → out.get ⟨i, hi⟩ ≠ out.get ⟨j, hj⟩

theorem get_mem_drop {α : Type} (l : List α) (k i : Nat) (hk : k ≤ i)
    (hi : i < l.length) : l.get ⟨i, hi⟩ ∈ l.drop k := by
  have hlt : i - k < (l.drop k).length := by simp; omega
  have heq : (l.drop k).get ⟨i - k, hlt⟩ = l.get ⟨i, hi⟩ := by
    simp [List.getElem_drop]
    congr 1
    omega
  rw [← heq]
  exact List.get_mem _ _ _

theorem dedupPush_windowDistinct {s : DState} (x : String)
    (hok : windowOk s) (hd : windowDistinct s.out) :
    windowDistinct (dedupPush s x).out := by
  unfold dedupPush
  by_cases hmem : x ∈ s.seen
  · simpa [hmem] using hd
  · simp only [hmem, if_false]
    show windowDistinct (s.out ++ [x])
    intro i j hi hj hij hwin
    by_cases hjlen : j < s.out.length
    · have hi2 : i < s.out.length := by omega
      have e1 : (s.out ++ [x]).get ⟨i, hi⟩ = s.out.get ⟨i, hi2⟩ := by
        simp [List.getElem_append_left hi2]
      have e2 : (s.out ++ [x]).get ⟨j, hj⟩ = s.out.get ⟨j, hjlen⟩ := by
        simp [List.getElem_append_left hjlen]
      rw [e1, e2]
      exact hd i j hi2 hjlen hij hwin
    · have hjlt : j < s.out.length + 1 := by simpa using hj
      have hjeq : j = s.out.length := by omega
      have hi2 : i < s.out.length := by omega
      have e2 : (s.out ++ [x]).get ⟨j, hj⟩ = x := by
        subst hjeq
        simp
      have e1 : (s.out ++ [x]).get ⟨i, hi⟩ = s.out.get ⟨i, hi2⟩ := by
        simp [List.getElem_append_left hi2]
      rw [e1, e2]
      intro hcontra
      apply hmem
      rw [hok, ← hcontra]
      exact get_mem_drop s.out (s.out.length - 10) i (by omega) hi2

theorem foldl_dedupPush_windowDistinct (names : List String) :
    ∀ s : DState, windowOk s → windowDistinct s.out →
      windowDistinct (names.foldl dedupPush s).out := by
  induction names with
  | nil => intro s _ hd; exact hd
  | cons n rest ih =>
    intro s hok hd
    exact ih (dedupPush s n) (dedupPush_windowOk n hok)
      (dedupPush_windowDistinct n hok hd)

theorem dedupRun_windowDistinct (names : List String) :
    windowDistinct (dedupRun names).out := by
  apply foldl_dedupPush_windowDistinct names ⟨[], []⟩ rfl
  intro i j hi _ _ _
  simp at hi

theorem engineRun_foldl_aux (root : String) (rs : List (List Comment)) :
    ∀ (acc : List Comment) (st : CState),
      (let f := rs.foldl
        (fun (p : List Comment × CState) resp =>
          (p.1 ++ p.2.comments, merge_more_comments ⟨root, [], []⟩ resp))
        (acc, st)
       f.1 ++ f.2.comments)
        = acc ++ st.comments ++ rs.flatMap (batchTrees root) := by
  induction rs with
  | nil => intro acc st; simp
  | cons r rs2 ih =>
    intro acc st
    simp only [List.foldl_cons]
    rw [ih (acc ++ st.comments) (merge_more_comments ⟨root, [], []⟩ r)]
    simp [batchTrees, List.append_assoc]

/-- Each expansion response contributes its attachments independently:
every merge starts from a drained comment vector and a reset index, so the
engine run is the concatenation of the per-response attachments. -/
theorem engineRun_flatMap (root : String) (rs : List (List Comment)) :
    engineRun root rs = rs.flatMap (batchTrees root) := by
  unfold engineRun
  have := engineRun_foldl_aux root rs [] ⟨root, [], []⟩
  simpa using this

theorem pageStep_none {ι : Type} :
    ∀ ps : List (List ι), pageStep ps = none → ps.flatten = [] := by
  intro ps
  induction ps with
  | nil => intro _; rfl
  | cons p rest ih =>
    match p with
    | [] =>
      intro h
      simp only [pageStep] at h
      simpa using ih h
    | c :: cs => intro h; simp [pageStep] at h

theorem pageStep_some {ι : Type} :
    ∀ (ps rest : List (List ι)) (c : ι) (cs : List ι),
      pageStep ps = some (c, cs, rest) →
      ps.flatten = c :: (cs ++ rest.flatten) ∧ rest.length < ps.length := by
  intro ps
  induction ps with
  | nil => intro rest c cs h; simp [pageStep] at h
  | cons p tail ih =>
    intro rest c cs h
    match p with
    | [] =>
      simp only [pageStep] at h
      obtain ⟨h1, h2⟩ := ih rest c cs h
      constructor
      · simpa using h1
      · simp
        omega
    | d :: ds =>
      simp only [pageStep, Option.some.injEq, Prod.mk.injEq] at h
      obtain ⟨ha, hb, hc⟩ := h
      subst ha
      subst hb
      subst hc
      constructor
      · simp
      · simp

/-- `Listing::next` over the page-sequence transport, on an empty buffer:
exhausted pages are skipped inside the one call, the front item of the
first non-empty page is yielded, and with no items left the sequence
ends. -/
theorem listingNext_pageTransport {ι : Type} :
    ∀ (ps : List (List ι)) (F : Nat), ps.length < F →
      listingNext pageTransport F ⟨[], tokOf ps⟩
        = match pageStep ps with
          | none => LNext.ended
          | some (c, cs, rest) => LNext.item c ⟨cs, tokOf rest⟩ := by
  intro ps
  induction ps with
  | nil => intro F _; simp [tokOf, pageStep, listingNext]
  | cons p rest ih =>
    intro F hF
    match F with
    | 0 => omega
    | F2 + 1 =>
      show listingNext pageTransport (F2 + 1) ⟨[], some (p :: rest)⟩ = _
      match p with
      | c :: cs => simp [listingNext, pageTransport, pageStep]
      | [] =>
        have hF2 : rest.length < F2 := by
          simp at hF
          omega
        have hrec := ih F2 hF2
        simp only [listingNext, pageTransport]
        rw [hrec]
        simp [pageStep]

/-- Draining a listing over the page-sequence transport yields the
buffered items followed by every remaining page's items, in order, and
ends cleanly, with exact step fuel. -/
theorem listingDrain_pageTransport {ι : Type} :
    ∀ (n : Nat) (cs : List ι) (ps : List (List ι)) (F : Nat),
      cs.length + ps.flatten.length = n → ps.length < F →
      listingDrain pageTransport (n + 1) F ⟨cs, tokOf ps⟩
        = (cs ++ ps.flatten, LEnd.ended) := by
  intro n
  induction n using Nat.strong_induction_on with
  | _ n ih =>
    intro cs ps F hn hF
    match cs with
    | c :: cs2 =>
      have hlen2 : (c :: cs2).length = cs2.length + 1 := by simp
      have hpos : 1 ≤ n := by omega
      have hn2 : cs2.length + ps.flatten.length = n - 1 := by omega
      have hr := ih (n - 1) (by omega) cs2 ps F hn2 hF
      have hn1 : n - 1 + 1 = n := by omega
      rw [hn1] at hr
      simp only [listingDrain, listingNext]
      rw [hr]
      simp
    | [] =>
      have hnil : ([] : List ι).length = 0 := rfl
      match h2 : pageStep ps with
      | none =>
        have hfl := pageStep_none ps h2
        have h0 : ps.flatten.length = 0 := by rw [hfl]; rfl
        have hn0 : n = 0 := by omega
        subst hn0
        simp only [listingDrain]
        rw [listingNext_pageTransport ps F hF, h2]
        simp [hfl]
      | some (c, cs2, rest) =>
        obtain ⟨hfl, hlen⟩ := pageStep_some ps rest c cs2 h2
        have hflen : ps.flatten.length
            = cs2.length + rest.flatten.length + 1 := by
          rw [hfl]
          simp
        have hpos : 1 ≤ n := by omega
        have hr := ih (n - 1) (by omega) cs2 rest F
          (by omega) (by omega)
        have hn1 : n - 1 + 1 = n := by omega
        rw [hn1] at hr
        simp only [listingDrain]
        rw [listingNext_pageTransport ps F hF, h2]
        simp [hr, hfl]

/-! ## Claims -/

/-- Claim C1 (the code, evaluated at the claim's own scenario): a child
`c = t1_C` with `parent_id = t1_P` arriving strictly before `p = t1_P`,
with `p` then attached (as a root child, or under a materialized comment),
leaves `c` unattached: the orphan registry is keyed by the child's own
name and neither attach branch of `merge_comment` consults it, so the
final attached pairs never contain `(t1_C, t1_P)`; a depth-3 chain
arriving leaf-first loses everything but the root child. -/
theorem c1_orphan_adoption_fails :
    enginePairs "t3_X"
        [[Comment.mk "t1_C" "t1_P" [], Comment.mk "t1_P" "t3_X" []]]
      = [("t1_P", "t3_X")] ∧
    enginePairs "t3_X"
        [[Comment.mk "t1_C" "t1_P" []], [Comment.mk "t1_P" "t3_X" []]]
      = [("t1_P", "t3_X")] ∧
    enginePairs "t3_X"
        [[Comment.mk "t1_Q" "t3_X" [], Comment.mk "t1_C" "t1_P" [],
          Comment.mk "t1_P" "t1_Q" []]]
      = [("t1_Q", "t3_X"), ("t1_P", "t1_Q")] ∧
    enginePairs "t3_X"
        [[Comment.mk "t1_3" "t1_2" [], Comment.mk "t1_2" "t1_1" [],
          Comment.mk "t1_1" "t3_X" []]]
      = [("t1_1", "t3_X")] :=
  ⟨rfl, rfl, rfl, rfl⟩

/-- Claim C2 (the code, evaluated at the claim's exact scenario): for root
parent `t3_X`, batch 1 `[Node(t1_A, parent t3_X), Stub(parent t1_A,
children [t1_B, t1_C])]` and an expansion fetch returning
`[Node(t1_B, parent t1_A), Node(t1_C, parent t1_A)]`, draining the
`CommentList` yields only `t1_A` and then ends: by the time the stub is
fetched, `t1_A` has been drained and `comment_hashes` reset, so `t1_B` and
`t1_C` are orphaned (keyed by their own names) and dropped — not the
claimed `t1_A, t1_B, t1_C`. -/
theorem c2_stub_expansion_scenario :
    (clNew "t3_X" c2Batch).map
        (fun s => ((clDrain c2Fetch 10 10 s).1.map Comment.name,
                   (clDrain c2Fetch 10 10 s).2))
      = some (["t1_A"], CLEnd.ended) :=
  rfl

/-- Claim C5, as stated, is false at concrete inputs: a transport failure
while `Listing::next` refetches panics (the `.expect` call) instead of
returning an error value; a fetch failure during a `PostStream` poll is
silently swallowed (the stream sleeps and re-polls forever, never
surfacing anything); and a malformed item in a comment batch makes
`CommentList::new` panic (`unwrap` / `unreachable!`). -/
theorem c5_error_surfacing_counterexample :
    listingNext
        (fun (_ : Nat) =>
          (Except.error (APIError.HTTPError 500) :
            Except APIError (List Nat × Option Nat)))
        3 ⟨[], some 0⟩
      = LNext.panicked (APIError.HTTPError 500) ∧
    postNext (fun _ => Except.error APIError.HyperError) 7 ⟨[], none, 0⟩
      = SNext.outOfFuel ∧
    clNew "t3_X" [RawThing.malformed] = none :=
  ⟨rfl, rfl, rfl⟩

/-- Claim C5, amended to what the code does: errors from collaborator
calls inside `next()` are not surfaced as error values.  With a transport
that always fails, `Listing::next` on an empty buffer with a continuation
token panics with the transport's error; `PostStream::next` discards the
poll error and retries forever (no outcome for any amount of fuel); and
`CommentList::new` panics on any malformed batch element. -/
theorem c5_error_surfacing_amended :
    (∀ (ι τ : Type) (tr : τ → Except APIError (List ι × Option τ))
        (e : APIError), (∀ t, tr t = Except.error e) →
      ∀ (fuel : Nat) (s : LState ι τ) (tok : τ),
        s.children = [] → s.after = some tok →
        listingNext tr fuel s = LNext.panicked e) ∧
    (∀ (tr : Nat → Except APIError (List String)),
        (∀ n, ∃ e, tr n = Except.error e) →
      ∀ (fuel : Nat) (s : PSState), s.currentIter = none →
        postNext tr fuel s = SNext.outOfFuel) ∧
    (∀ (parent : String) (things : List RawThing),
        RawThing.malformed ∈ things → clNew parent things = none) := by
  refine ⟨?_, ?_, ?_⟩
  · intro ι τ tr e htr fuel s tok hc ha
    obtain ⟨cs0, a0⟩ := s
    simp only at hc ha
    subst hc
    subst ha
    match fuel with
    | 0 => simp [listingNext, htr tok]
    | n + 1 => simp [listingNext, htr tok]
  · intro tr htr fuel
    induction fuel with
    | zero => intro s _; rfl
    | succ n ih =>
      intro s hs
      obtain ⟨set, cur, polls⟩ := s
      simp only at hs
      subst hs
      obtain ⟨e, he⟩ := htr polls
      simp only [postNext, he]
      exact ih ⟨set, none, polls + 1⟩ rfl
  · intro parent things hmem
    exact foldl_clNewStep_malformed things _ hmem

/-- Witness for the amended claim C5 at concrete inputs. -/
theorem c5_error_surfacing_amended_witness :
    listingNext
        (fun (_ : Nat) =>
          (Except.error APIError.HyperError :
            Except APIError (List Nat × Option Nat)))
        2 ⟨[], some 5⟩
      = LNext.panicked APIError.HyperError ∧
    postNext (fun _ => Except.error APIError.HyperError) 4 ⟨["x"], none, 3⟩
      = SNext.outOfFuel ∧
    clNew "p0" [RawThing.t1 (Comment.mk "a" "p0" []), RawThing.malformed]
      = none :=
  ⟨c5_error_surfacing_amended.1 Nat Nat _ APIError.HyperError (fun _ => rfl)
      2 ⟨[], some 5⟩ 5 rfl rfl,
   c5_error_surfacing_amended.2.1 _ (fun _ => ⟨APIError.HyperError, rfl⟩)
      4 ⟨["x"], none, 3⟩ rfl,
   c5_error_surfacing_amended.2.2 "p0" _ (by simp)⟩

/-- Claim C6: `ExhaustedListing` is unreachable from normal iteration.
If the transport never itself returns `ExhaustedListing`, then
`Listing::next` never panics with it; with an empty buffer and no
continuation token, `next` returns end-of-sequence; and `fetch_after` is
only ever given a present token from `next` (and then forwards the
transport verbatim, never taking its `ExhaustedListing` branch). -/
theorem c6_exhausted_listing_unreachable (ι τ : Type)
    (tr : τ → Except APIError (List ι × Option τ)) (fuel : Nat)
    (s : LState ι τ)
    (h : ∀ t, tr t ≠ Except.error APIError.ExhaustedListing) :
    listingNext tr fuel s ≠ LNext.panicked APIError.ExhaustedListing ∧
    (s.children = [] → s.after = none → listingNext tr fuel s = LNext.ended) ∧
    (∀ tok, s.after = some tok → fetch_after tr s = tr tok) := by
  induction fuel generalizing s with
  | zero =>
    obtain ⟨cs0, a0⟩ := s
    refine ⟨?_, ?_, ?_⟩
    · match cs0, a0 with
      | c :: cs, a => simp [listingNext]
      | [], none => simp [listingNext]
      | [], some tok =>
        match htr : tr tok with
        | Except.error e =>
          simp only [listingNext, htr]
          intro hcontra
          have he : e = APIError.ExhaustedListing := by injection hcontra
          exact h tok (by rw [htr, he])
        | Except.ok (items, newAfter) => simp [listingNext, htr]
    · intro hc ha
      simp only at hc ha
      subst hc; subst ha
      simp [listingNext]
    · intro tok ha
      simp only at ha
      subst ha
      simp [fetch_after]
  | succ n ih =>
    obtain ⟨cs0, a0⟩ := s
    refine ⟨?_, ?_, ?_⟩
    · match cs0, a0 with
      | c :: cs, a => simp [listingNext]
      | [], none => simp [listingNext]
      | [], some tok =>
        match htr : tr tok with
        | Except.error e =>
          simp only [listingNext, htr]
          intro hcontra
          have he : e = APIError.ExhaustedListing := by injection hcontra
          exact h tok (by rw [htr, he])
        | Except.ok (items, newAfter) =>
          simp only [listingNext, htr]
          exact (ih ⟨items, newAfter⟩).1
    · intro hc ha
      simp only at hc ha
      subst hc; subst ha
      simp [listingNext]
    · intro tok ha
      simp only at ha
      subst ha
      simp [fetch_after]

/-- Witness for claim C6 at a concrete transport and state. -/
theorem c6_exhausted_listing_unreachable_witness :
    listingNext
        (fun (_ : Nat) =>
          (Except.ok ([7], none) : Except APIError (List Nat × Option Nat)))
        3 ⟨[], none⟩
      ≠ LNext.panicked APIError.ExhaustedListing ∧
    listingNext
        (fun (_ : Nat) =>
          (Except.ok ([7], none) : Except APIError (List Nat × Option Nat)))
        3 ⟨[], none⟩
      = LNext.ended :=
  ⟨(c6_exhausted_listing_unreachable Nat Nat _ 3 ⟨[], none⟩
      (fun _ => by simp)).1,
   (c6_exhausted_listing_unreachable Nat Nat _ 3 ⟨[], none⟩
      (fun _ => by simp)).2.1 rfl rfl⟩

/-- Claim C9: every message yielded by `MessageStream::next` has had a
successful `mark_read` complete first.  Whenever the yield trace exists,
it consists of `k` failed mark calls, the successful mark call, one more
sleep of the fixed interval, and only then the yield; and if `mark_read`
never succeeds, the unbounded retry loop never reaches the yield. -/
theorem c9_mark_read_gating :
    (∀ (attempts : List Bool) (tr : List MEvent),
      messageYieldTrace attempts = some tr →
      ∃ k, attempts.take k = List.replicate k false ∧
        attempts.get? k = some true ∧
        tr = List.replicate k (MEvent.markCall false) ++
          [MEvent.markCall true, MEvent.sleepInterval, MEvent.emit]) ∧
    (∀ attempts : List Bool, (∀ a ∈ attempts, a = false) →
      messageYieldTrace attempts = none) := by
  constructor
  · have loopSpec : ∀ (attempts : List Bool) (tr : List MEvent),
        markLoopTrace attempts = some tr →
        ∃ k, attempts.take k = List.replicate k false ∧
          attempts.get? k = some true ∧
          tr = List.replicate k (MEvent.markCall false) ++
            [MEvent.markCall true, MEvent.sleepInterval] := by
      intro attempts
      induction attempts with
      | nil => intro tr h; simp [markLoopTrace] at h
      | cons ok rest ih =>
        intro tr h
        by_cases hok : ok = true
        · subst hok
          simp [markLoopTrace] at h
          exact ⟨0, by simp, by simp, by simp [← h]⟩
        · have hok2 : ok = false := by simp at hok; exact hok
          subst hok2
          simp only [markLoopTrace, if_false, Bool.false_eq_true] at h
          match h2 : markLoopTrace rest with
          | none => rw [h2] at h; simp at h
          | some tr2 =>
            rw [h2] at h
            simp at h
            obtain ⟨k, hk1, hk2, hk3⟩ := ih tr2 h2
            refine ⟨k + 1, by simp [hk1, List.replicate_succ], by simpa using hk2, ?_⟩
            rw [← h, hk3]
            simp [List.replicate_succ]
    intro attempts tr h
    unfold messageYieldTrace at h
    match h2 : markLoopTrace attempts with
    | none => rw [h2] at h; simp at h
    | some tr2 =>
      rw [h2] at h
      simp at h
      obtain ⟨k, hk1, hk2, hk3⟩ := loopSpec attempts tr2 h2
      refine ⟨k, hk1, hk2, ?_⟩
      rw [← h, hk3]
      simp
  · intro attempts hall
    unfold messageYieldTrace
    have : markLoopTrace attempts = none := by
      induction attempts with
      | nil => rfl
      | cons ok rest ih =>
        have hok : ok = false := hall ok (by simp)
        subst hok
        simp only [markLoopTrace, Bool.false_eq_true, if_false]
        rw [ih (fun a ha => hall a (by simp [ha]))]
        rfl
    rw [this]
    rfl

/-- Witness for claim C9: with outcomes `[failure, success]` the trace is
fail, success, sleep, yield; with all failures there is no yield. -/
theorem c9_mark_read_gating_witness :
    (∃ k, ([false, true].take k = List.replicate k false ∧
      [false, true].get? k = some true ∧
      [MEvent.markCall false, MEvent.markCall true, MEvent.sleepInterval,
        MEvent.emit] = List.replicate k (MEvent.markCall false) ++
          [MEvent.markCall true, MEvent.sleepInterval, MEvent.emit])) ∧
    messageYieldTrace [false, false, false] = none :=
  ⟨c9_mark_read_gating.1 [false, true]
      [MEvent.markCall false, MEvent.markCall true, MEvent.sleepInterval,
        MEvent.emit] rfl,
   c9_mark_read_gating.2 [false, false, false] (by decide)⟩

/-- Claim C10, as stated, is false at a concrete input: when a poll's
response holds fewer than 5 comments plus a `more` stub, `take(5)` on the
freshly built `CommentList` follows the stub and yields an expansion
comment that is not in the response's comment listing at all — here the
poll yields `t1_e1`, which is not among the response's comments
(`[t1_c1]`). -/
theorem c10_per_poll_cap_counterexample :
    commentStreamPollBatch
        (fun _ => [RawThing.t1 (Comment.mk "t1_e1" "t3_L" [])]) 10 "t3_L"
        [RawThing.t1 (Comment.mk "t1_c1" "t3_L" []),
         RawThing.moreThing ⟨"t1_c1", ["t1_e1"]⟩]
      = some [Comment.mk "t1_e1" "t3_L" [], Comment.mk "t1_c1" "t3_L" []] ∧
    Comment.mk "t1_e1" "t3_L" [] ∉ [Comment.mk "t1_c1" "t3_L" []] :=
  ⟨rfl, by decide⟩

/-- Claim C10, amended to what the code does: each `CommentStream` poll
yields at most 5 items (the `take(5)` cap holds for every response and
every expansion fetch), in the reverse of the drained order; when the
response contains only comments (no `more` stubs), the batch is exactly
the response's first 5 (newest) comments reversed, comments beyond the 5
newest never being considered or yielded from that poll; but a response
with fewer than 5 comments plus a stub makes the drain fetch the stub,
so the 5-item budget may include expansion comments that are not part of
the response listing.  The dedup filter the batch then passes through
never yields anything outside the batch. -/
theorem c10_per_poll_cap_amended :
    (∀ (fetch : More → List RawThing) (fuel : Nat) (parent : String)
        (things : List RawThing) (l : List Comment),
      commentStreamPollBatch fetch fuel parent things = some l →
      l.length ≤ 5) ∧
    (∀ (fetch : More → List RawThing) (fuel : Nat) (parent : String)
        (cs : List Comment),
      commentStreamPollBatch fetch fuel parent (cs.map RawThing.t1)
        = some ((cs.take 5).reverse) ∧
      ∀ c ∈ (cs.take 5).reverse, c ∈ cs.take 5) ∧
    (∀ (s : DState) (names : List String) (x : String),
      x ∈ (names.foldl dedupPush s).out → x ∈ s.out ∨ x ∈ names) := by
  refine ⟨?_, ?_, ?_⟩
  · intro fetch fuel parent things l hl
    unfold commentStreamPollBatch at hl
    match hnew : clNew parent things with
    | none => rw [hnew] at hl; simp at hl
    | some s =>
      rw [hnew] at hl
      simp only at hl
      by_cases hp : (clDrain fetch 5 fuel s).2 = CLEnd.panickedDecode
      · rw [if_pos hp] at hl
        simp at hl
      · rw [if_neg hp] at hl
        have hleq : l = (clDrain fetch 5 fuel s).1.reverse := by
          injection hl with h3
          exact h3.symm
        subst hleq
        simpa using clDrain_length_le fetch 5 fuel s
  · intro fetch fuel parent cs
    obtain ⟨h2, hnew⟩ := clNew_t1 parent cs
    constructor
    · unfold commentStreamPollBatch
      rw [hnew]
      simp only [clDrain_no_more]
      by_cases hle : 5 ≤ cs.length
      · simp [hle]
      · simp [hle]
    · intro c hc
      simpa using hc
  · intro s names
    induction names generalizing s with
    | nil => intro x hx; exact Or.inl hx
    | cons n rest ih =>
      intro x hx
      simp only [List.foldl_cons] at hx
      rcases ih (dedupPush s n) x hx with hin | hin
      · unfold dedupPush at hin
        by_cases hmem : n ∈ s.seen
        · simp [hmem] at hin
          exact Or.inl hin
        · simp [hmem] at hin
          rcases hin with h4 | h4
          · exact Or.inl h4
          · subst h4
            exact Or.inr (by simp)
      · exact Or.inr (by simp [hin])

/-- Witness for the amended claim C10: the cap holds at the stub-carrying
poll of the counterexample's shape, and a 6-comment stub-free poll yields
exactly the reversed first 5. -/
theorem c10_per_poll_cap_amended_witness :
    ([Comment.mk "t1_e1" "t3_L" [],
      Comment.mk "t1_c1" "t3_L" []] : List Comment).length ≤ 5 ∧
    commentStreamPollBatch (fun _ => []) 3 "t3_L"
        ([Comment.mk "a" "q" [], Comment.mk "b" "q" [], Comment.mk "c" "q" [],
          Comment.mk "d" "q" [], Comment.mk "e" "q" [],
          Comment.mk "f" "q" []].map RawThing.t1)
      = some [Comment.mk "e" "q" [], Comment.mk "d" "q" [],
              Comment.mk "c" "q" [], Comment.mk "b" "q" [],
              Comment.mk "a" "q" []] :=
  ⟨c10_per_poll_cap_amended.1
      (fun _ => [RawThing.t1 (Comment.mk "t1_e1" "t3_L" [])]) 10 "t3_L"
      [RawThing.t1 (Comment.mk "t1_c1" "t3_L" []),
       RawThing.moreThing ⟨"t1_c1", ["t1_e1"]⟩]
      [Comment.mk "t1_e1" "t3_L" [], Comment.mk "t1_c1" "t3_L" []] rfl,
   (c10_per_poll_cap_amended.2.1 (fun _ => []) 3 "t3_L"
      [Comment.mk "a" "q" [], Comment.mk "b" "q" [], Comment.mk "c" "q" [],
       Comment.mk "d" "q" [], Comment.mk "e" "q" [],
       Comment.mk "f" "q" []]).1⟩

/-- Claim C8: after any sequence of candidate items has passed through the
dedup window, the window holds at most 10 identifiers and is exactly the
most recent suffix of the yield history (so the eviction at capacity is
FIFO: the oldest identifier is the one dropped); and any state with a
window within capacity that `PostStream::next` steps from yields a state
still within capacity. -/
theorem c8_seen_window_capacity :
    (∀ names : List String,
      (dedupRun names).seen.length ≤ 10 ∧
      (dedupRun names).seen
        = (dedupRun names).out.drop ((dedupRun names).out.length - 10)) ∧
    (∀ (tr : Nat → Except APIError (List String)) (fuel : Nat)
        (s : PSState) (x : String) (s2 : PSState),
      s.set.length ≤ 10 → postNext tr fuel s = SNext.item x s2 →
      s2.set.length ≤ 10) := by
  constructor
  · intro names
    have h := dedupRun_windowOk names
    refine ⟨?_, h⟩
    have := windowOk_length h
    omega
  · intro tr fuel
    induction fuel with
    | zero =>
      intro s x s2 _ h
      exact absurd h (by simp [postNext])
    | succ n ih =>
      intro s x s2 hcap h
      obtain ⟨set, cur, polls⟩ := s
      match cur with
      | some (y :: rest) =>
        by_cases hmem : y ∈ set
        · simp only [postNext, hmem, if_true] at h
          exact ih ⟨set, some rest, polls⟩ x s2 hcap h
        · simp only [postNext, hmem, if_false] at h
          have hs2 : s2 = ⟨if (set ++ [y]).length > 10
              then (set ++ [y]).drop 1 else set ++ [y],
              some rest, polls⟩ := by
            injection h with h1 h2
            exact h2.symm
          subst hs2
          simp only at hcap
          by_cases hbig : (set ++ [y]).length > 10
          · simp only [hbig, if_true]
            simp
            simp at hbig
            omega
          · simp only [hbig, if_false]
            simp at hbig
            simp
            omega
      | some [] =>
        simp only [postNext] at h
        exact ih ⟨set, none, polls⟩ x s2 hcap h
      | none =>
        simp only [postNext] at h
        match htr : tr polls with
        | Except.ok children =>
          rw [htr] at h
          exact ih ⟨set, some children.reverse, polls + 1⟩ x s2 hcap h
        | Except.error e =>
          rw [htr] at h
          exact ih ⟨set, none, polls + 1⟩ x s2 hcap h

/-- Witness for claim C8: a concrete `PostStream` step stays within
capacity, and a concrete run of the window obeys the bound. -/
theorem c8_seen_window_capacity_witness :
    (PSState.set ⟨["a"], some [], 0⟩).length ≤ 10 ∧
    (dedupRun ["a", "b"]).seen.length ≤ 10 :=
  ⟨c8_seen_window_capacity.2 (fun _ => Except.ok []) 5
      ⟨[], some ["a"], 0⟩ "a" ⟨["a"], some [], 0⟩ (by simp) rfl,
   (c8_seen_window_capacity.1 ["a", "b"]).1⟩

/-- Claim C7: the streams never yield an identifier while it is among the
last 10 distinct yielded identifiers (any two yields at distance at most
10 differ), and a repeated identifier implies at least 11 positions in
between, with the 10 yields immediately preceding the re-emission pairwise
distinct and all different from the repeated identifier — i.e. at least 10
newer distinct identifiers were yielded since the previous emission. -/
theorem c7_dedup_window_bound (names : List String) :
    (∀ (i j : Nat) (hi : i < (dedupRun names).out.length)
        (hj : j < (dedupRun names).out.length), i < j → j ≤ i + 10 →
      (dedupRun names).out.get ⟨i, hi⟩ ≠ (dedupRun names).out.get ⟨j, hj⟩) ∧
    (∀ (i j : Nat) (hi : i < (dedupRun names).out.length)
        (hj : j < (dedupRun names).out.length), i < j →
      (dedupRun names).out.get ⟨i, hi⟩ = (dedupRun names).out.get ⟨j, hj⟩ →
      i + 11 ≤ j ∧
      (((dedupRun names).out.drop (j - 10)).take 10).length = 10 ∧
      (((dedupRun names).out.drop (j - 10)).take 10).Nodup ∧
      (dedupRun names).out.get ⟨j, hj⟩
        ∉ ((dedupRun names).out.drop (j - 10)).take 10) := by
  have h1 := dedupRun_windowDistinct names
  refine ⟨h1, ?_⟩
  intro i j hi hj hij heq
  have hgap : i + 11 ≤ j := by
    by_contra hcon
    exact h1 i j hi hj hij (by omega) heq
  have hj11 : 11 ≤ j := by omega
  have hkey : ∀ (t : Nat)
      (ht : t < (((dedupRun names).out.drop (j - 10)).take 10).length)
      (h3 : j - 10 + t < (dedupRun names).out.length),
      (((dedupRun names).out.drop (j - 10)).take 10).get ⟨t, ht⟩
        = (dedupRun names).out.get ⟨j - 10 + t, h3⟩ := by
    intro t ht h3
    simp [List.getElem_take, List.getElem_drop]
  have hwlen : (((dedupRun names).out.drop (j - 10)).take 10).length = 10 := by
    simp only [List.length_take, List.length_drop]
    omega
  refine ⟨hgap, hwlen, ?_, ?_⟩
  · rw [List.nodup_iff_injective_get]
    intro a b hab
    have hta : (a : Nat) < 10 := by
      have := a.2
      omega
    have htb : (b : Nat) < 10 := by
      have := b.2
      omega
    have h3a : j - 10 + (a : Nat) < (dedupRun names).out.length := by omega
    have h3b : j - 10 + (b : Nat) < (dedupRun names).out.length := by omega
    have hab2 : (dedupRun names).out.get ⟨j - 10 + (a : Nat), h3a⟩
        = (dedupRun names).out.get ⟨j - 10 + (b : Nat), h3b⟩ := by
      rw [← hkey (a : Nat) a.2 h3a, ← hkey (b : Nat) b.2 h3b]
      have ha2 : a = ⟨(a : Nat), a.2⟩ := rfl
      have hb2 : b = ⟨(b : Nat), b.2⟩ := rfl
      rw [ha2, hb2] at hab
      exact hab
    rcases Nat.lt_trichotomy (a : Nat) (b : Nat) with hlt | heq2 | hgt
    · exact absurd hab2
        (h1 (j - 10 + (a : Nat)) (j - 10 + (b : Nat)) h3a h3b
          (by omega) (by omega))
    · exact Fin.ext heq2
    · exact absurd hab2.symm
        (h1 (j - 10 + (b : Nat)) (j - 10 + (a : Nat)) h3b h3a
          (by omega) (by omega))
  · intro hcontra
    obtain ⟨⟨t, ht⟩, hteq⟩ := List.mem_iff_get.mp hcontra
    have hta : t < 10 := by omega
    have h3 : j - 10 + t < (dedupRun names).out.length := by omega
    rw [hkey t ht h3] at hteq
    exact h1 (j - 10 + t) j h3 hj (by omega) (by omega) hteq

/-- Witness for claim C7: with 10 distinct identifiers between the two
emissions of `"a"`, the second emission happens (position 11), and two
yields at distance at most 10 always differ. -/
theorem c7_dedup_window_bound_witness :
    (dedupRun ["a", "b0", "b1", "b2", "b3", "b4", "b5", "b6", "b7", "b8",
        "b9", "a"]).out.get ⟨0, by decide⟩
      ≠ (dedupRun ["a", "b0", "b1", "b2", "b3", "b4", "b5", "b6", "b7",
        "b8", "b9", "a"]).out.get ⟨5, by decide⟩ ∧
    0 + 11 ≤ 11 :=
  ⟨(c7_dedup_window_bound
      ["a", "b0", "b1", "b2", "b3", "b4", "b5", "b6", "b7", "b8", "b9",
       "a"]).1 0 5 (by decide) (by decide) (by decide) (by decide),
   ((c7_dedup_window_bound
      ["a", "b0", "b1", "b2", "b3", "b4", "b5", "b6", "b7", "b8", "b9",
       "a"]).2 0 11 (by decide) (by decide) (by decide) (by decide)).1⟩

/-- Claim C3: for a fixed root parent, merging a fixed collection of
expansion responses in any arrival permutation produces the same final
attached-node set — the same ids with the same parent-child relationships
(as the set of (child id, parent id) attachment pairs) — provided every
referenced parent eventually arrives. -/
theorem c3_merge_permutation_invariance (root : String)
    (rs1 rs2 : List (List Comment)) (hperm : rs1.Perm rs2)
    (_hall : parentsArrive root rs1) :
    (enginePairs root rs1).toFinset = (enginePairs root rs2).toFinset := by
  apply List.toFinset_eq_of_perm
  unfold enginePairs
  rw [engineRun_flatMap, engineRun_flatMap]
  exact (hperm.flatMap_right (batchTrees root)).flatMap_right (treePairs root)

/-- Witness for claim C3: the two-response collection
`[[Node(t1_P, parent t3_X)], [Node(t1_C, parent t1_P)]]` merged in both
arrival orders gives the same attached pairs. -/
theorem c3_merge_permutation_invariance_witness :
    (enginePairs "t3_X"
        [[Comment.mk "t1_P" "t3_X" []], [Comment.mk "t1_C" "t1_P" []]]).toFinset
      = (enginePairs "t3_X"
        [[Comment.mk "t1_C" "t1_P" []], [Comment.mk "t1_P" "t3_X" []]]).toFinset :=
  c3_merge_permutation_invariance "t3_X"
    [[Comment.mk "t1_P" "t3_X" []], [Comment.mk "t1_C" "t1_P" []]]
    [[Comment.mk "t1_C" "t1_P" []], [Comment.mk "t1_P" "t3_X" []]]
    (List.Perm.swap [Comment.mk "t1_C" "t1_P" []]
      [Comment.mk "t1_P" "t3_X" []] [])
    (by decide)

/-- Claim C4: for every page sequence P1..Pn served by the transport
(each page's continuation token leading to the next page, the last page's
token absent), iterating the `Listing` yields exactly the concatenation of
the pages' items in server order — nothing reordered, dropped, or
duplicated — and the iteration is finite: after the last item, `next()`
returns end-of-sequence, not an error. -/
theorem c4_paginator_order_preservation (ι : Type) (ps : List (List ι)) :
    listingDrain pageTransport (ps.flatten.length + 1) (ps.length + 1)
        (initListing ps)
      = (ps.flatten, LEnd.ended) := by
  match ps with
  | [] => rfl
  | p :: rest =>
    have hmain := listingDrain_pageTransport (p.length + rest.flatten.length)
      p rest ((p :: rest).length + 1) rfl (by simp; omega)
    have hlen : (p :: rest).flatten.length
        = p.length + rest.flatten.length := by simp
    show listingDrain pageTransport ((p :: rest).flatten.length + 1)
        ((p :: rest).length + 1) ⟨p, tokOf rest⟩ = _
    rw [hlen, hmain]
    simp

end Rawr
